import Mathlib

/-!
Verification of the binary search core of memcachedb-client
(src/ext/memcache/binary_search.c).

The C function `binary_search(self, ary, number)` receives a Ruby array
`ary` of entries, each responding to a `value` accessor returning an
unsigned int, and a query `number` converted by NUM2UINT.  It runs the
classic inclusive-bounds binary search with `int lower = 0`,
`int upper = RARRAY_LEN(ary) - 1`, midpoint `idx = (lower + upper) / 2`,
returning `idx` on an exact match and `upper` after the loop exits.

The embedding below models values and the query as `Nat` (the unsigned
comparisons of the C code), indices and bounds as `Int` (the C `int`
variables, which can legitimately hold -1), and the loop as a fuel-indexed
recursion `bsLoopF` returning `Option Int` (`none` = fuel exhausted; the
termination theorem shows fuel `n + 1` always suffices).  In every state
the C loop reaches, `lower ≥ 0`, hence `lower + upper ≥ 0` whenever the
midpoint is computed, so C's truncating division agrees with Lean's
floor division `Int.ediv` used here.
-/

/-- An element of the searched sequence: a numeric `value` (unsigned
integer domain) plus an opaque payload that the search never inspects.
Mirrors the Ruby objects stored in the continuum array, which respond to
the `value` accessor invoked via `rb_funcall` in binary_search.c. -/
structure Entry where
  value : Nat
  payload : Nat
deriving DecidableEq

/-- Reading `RARRAY_PTR(ary)[i]` followed by the `value` accessor call,
as a total function on `Nat` indices (out-of-range reads default to a
dummy entry; the probe theorems show every index the algorithm reads is
in bounds, so the default is never consulted on the algorithm's path). -/
def listAcc (ary : List Entry) : Nat → Nat :=
  fun i => (ary.getD i (Entry.mk 0 0)).value

/-- `idx = (lower + upper) / 2` from binary_search.c.  In every state the
C loop reaches, `lower ≥ 0 ∧ lower ≤ upper`, so the sum is nonnegative
and C's truncating `int` division agrees with this floor division. -/
def midIdx (lower upper : Int) : Int := (lower + upper) / 2

/-- The `while (lower <= upper)` loop of binary_search.c, fuel-indexed.
`f` is the entry-value accessor, `r` the query (the C variable `r`).
Each iteration computes `idx := midIdx lower upper`, reads
`l := f idx.toNat`, returns `idx` if `l = r`, moves `upper := idx - 1`
if `l > r`, else moves `lower := idx + 1`.  When the loop condition
fails it returns `upper`.  `none` is returned only on fuel exhaustion,
which the termination theorem rules out for fuel `> upper + 1 - lower`. -/
def bsLoopF (f : Nat → Nat) (r : Nat) : Nat → Int → Int → Option Int
  | 0, _, _ => none
  | fuel + 1, lower, upper =>
    if lower ≤ upper then
      if f (midIdx lower upper).toNat = r then some (midIdx lower upper)
      else if f (midIdx lower upper).toNat > r then
        bsLoopF f r fuel lower (midIdx lower upper - 1)
      else
        bsLoopF f r fuel (midIdx lower upper + 1) upper
    else some upper

/-- `binary_search(ary, number)`: the C entry point.  `upper` starts at
`RARRAY_LEN(ary) - 1`, `lower` at 0.  Fuel `length + 1` suffices (proved
below), so the `getD` fallback is never taken. -/
def binary_search (ary : List Entry) (r : Nat) : Int :=
  (bsLoopF (listAcc ary) r (ary.length + 1) 0 ((ary.length : Int) - 1)).getD
    ((ary.length : Int) - 1)

/-- The sequence is sorted non-decreasing by `value` (the caller-side
invariant the spec demands; never verified by the C code). -/
def sortedList (ary : List Entry) : Prop :=
  ∀ j, j < ary.length → ∀ i, i < j → listAcc ary i ≤ listAcc ary j

instance instDecidableSortedList (ary : List Entry) : Decidable (sortedList ary) :=
  inferInstanceAs
    (Decidable (∀ j, j < ary.length → ∀ i, i < j → listAcc ary i ≤ listAcc ary j))

/-- The list of indices `idx` at which the loop of binary_search.c reads
`RARRAY_PTR(ary)[idx]`, in probe order, fuel-indexed exactly like
`bsLoopF`. -/
def bsProbesF (f : Nat → Nat) (r : Nat) : Nat → Int → Int → List Int
  | 0, _, _ => []
  | fuel + 1, lower, upper =>
    if lower ≤ upper then
      midIdx lower upper ::
        (if f (midIdx lower upper).toNat = r then []
         else if f (midIdx lower upper).toNat > r then
           bsProbesF f r fuel lower (midIdx lower upper - 1)
         else
           bsProbesF f r fuel (midIdx lower upper + 1) upper)
    else []

/-- The probe sequence of a full `binary_search` call. -/
def binary_search_probes (ary : List Entry) (r : Nat) : List Int :=
  bsProbesF (listAcc ary) r (ary.length + 1) 0 ((ary.length : Int) - 1)

/-- One iteration of the loop of binary_search.c as a transition on the
`(lower, upper)` bound pair: `none` when the loop stops in this state
(exact match found, or `lower > upper`), otherwise the next bound pair. -/
def bsStep (f : Nat → Nat) (r : Nat) (s : Int × Int) : Option (Int × Int) :=
  if s.1 ≤ s.2 then
    if f (midIdx s.1 s.2).toNat = r then none
    else if f (midIdx s.1 s.2).toNat > r then some (s.1, midIdx s.1 s.2 - 1)
    else some (midIdx s.1 s.2 + 1, s.2)
  else none

/-- `k` iterations of `bsStep` (reaching a bound pair of the loop). -/
def bsStepN (f : Nat → Nat) (r : Nat) : Nat → Int × Int → Option (Int × Int)
  | 0, s => some s
  | k + 1, s => (bsStep f r s).bind (bsStepN f r k)

/-- Concrete sequence from the spec's scenarios: values 10, 20, 30, 40. -/
def S4 : List Entry :=
  [Entry.mk 10 0, Entry.mk 20 1, Entry.mk 30 2, Entry.mk 40 3]

/-- Concrete sorted sequence in which every entry holds the same value 7. -/
def S3dup : List Entry :=
  [Entry.mk 7 0, Entry.mk 7 1, Entry.mk 7 2]

/-- The midpoint lies inside the inclusive interval. -/
theorem midIdx_bounds (lower upper : Int) (h : lower ≤ upper) :
    lower ≤ midIdx lower upper ∧ midIdx lower upper ≤ upper := by
  unfold midIdx
  omega

/-- Sanity: the spec's concrete scenarios. -/
example : binary_search S4 30 = 2 := by decide
example : binary_search S4 25 = 1 := by decide
example : binary_search S4 5 = -1 := by decide
example : binary_search S4 99 = 3 := by decide
example : binary_search [] 1 = -1 := by decide
example : binary_search [Entry.mk 5 0] 5 = 0 := by decide
example : binary_search_probes S4 25 = [1, 2] := by decide
example : binary_search S3dup 7 = 1 := by decide

/-- Range invariant: from any state with `0 ≤ lower`, `-1 ≤ upper < n` and
enough fuel, the loop completes and the result lies in `[-1, n - 1]`. -/
theorem bsLoopF_range (f : Nat → Nat) (r : Nat) (n : Nat) :
    ∀ fuel : Nat, ∀ lower upper : Int,
    (upper + 1 - lower).toNat < fuel → 0 ≤ lower → -1 ≤ upper → upper < (n : Int) →
    ∃ v, bsLoopF f r fuel lower upper = some v ∧ -1 ≤ v ∧ v < (n : Int) := by
  intro fuel
  induction fuel with
  | zero => intro lower upper hfuel h0 hm hn; omega
  | succ fuel ih =>
    intro lower upper hfuel h0 hm hn
    by_cases hle : lower ≤ upper
    · have hmid := midIdx_bounds lower upper hle
      by_cases heq : f (midIdx lower upper).toNat = r
      · refine ⟨midIdx lower upper, ?_, by omega, by omega⟩
        simp only [bsLoopF, if_pos hle, if_pos heq]
      · by_cases hgt : f (midIdx lower upper).toNat > r
        · obtain ⟨v, hv, hv1, hv2⟩ :=
            ih lower (midIdx lower upper - 1) (by omega) h0 (by omega) (by omega)
          refine ⟨v, ?_, hv1, hv2⟩
          simp only [bsLoopF, if_pos hle, if_neg heq, if_pos hgt]
          exact hv
        · obtain ⟨v, hv, hv1, hv2⟩ :=
            ih (midIdx lower upper + 1) upper (by omega) (by omega) hm hn
          refine ⟨v, ?_, hv1, hv2⟩
          simp only [bsLoopF, if_pos hle, if_neg heq, if_neg hgt]
          exact hv
    · refine ⟨upper, ?_, by omega, by omega⟩
      simp only [bsLoopF, if_neg hle]

/-- The fuel budget `length + 1` used by `binary_search` always suffices:
the loop runs to completion and `binary_search` is its result. -/
theorem binary_search_spec (ary : List Entry) (r : Nat) :
    bsLoopF (listAcc ary) r (ary.length + 1) 0 ((ary.length : Int) - 1) =
      some (binary_search ary r) := by
  obtain ⟨v, hv, -, -⟩ :=
    bsLoopF_range (listAcc ary) r ary.length (ary.length + 1) 0
      ((ary.length : Int) - 1) (by omega) (by omega) (by omega) (by omega)
  rw [hv]
  unfold binary_search
  rw [hv]
  rfl

/-- No-match invariant: if the sequence is sorted on `[0, n)`, the query
occurs nowhere, the state is well-formed, everything left of `lower` is
below the query and everything right of `upper` is above it, then the
loop completes and its result `v` satisfies `j ≤ v ↔ f j < r` for every
index `j < n` — i.e. `v` is the predecessor index. -/
theorem bsLoopF_nomatch (f : Nat → Nat) (r : Nat) (n : Nat)
    (hs : ∀ j, j < n → ∀ i, i < j → f i ≤ f j)
    (hnm : ∀ j, j < n → f j ≠ r) :
    ∀ fuel : Nat, ∀ lower upper : Int,
    (upper + 1 - lower).toNat < fuel →
    0 ≤ lower → upper < (n : Int) → lower ≤ upper + 1 →
    (∀ j : Nat, j < n → (j : Int) < lower → f j < r) →
    (∀ j : Nat, j < n → upper < (j : Int) → r < f j) →
    ∃ v, bsLoopF f r fuel lower upper = some v ∧
      lower - 1 ≤ v ∧ v ≤ upper ∧
      ∀ j : Nat, j < n → ((j : Int) ≤ v ↔ f j < r) := by
  intro fuel
  induction fuel with
  | zero => intro lower upper hfuel _ _ _ _ _; omega
  | succ fuel ih =>
    intro lower upper hfuel h0 hn hlu hlow hhigh
    by_cases hle : lower ≤ upper
    · have hmid := midIdx_bounds lower upper hle
      have hidx : (midIdx lower upper).toNat < n := by omega
      have hidxc : ((midIdx lower upper).toNat : Int) = midIdx lower upper := by
        omega
      by_cases heq : f (midIdx lower upper).toNat = r
      · exact absurd heq (hnm _ hidx)
      · by_cases hgt : f (midIdx lower upper).toNat > r
        · have hhigh2 : ∀ j : Nat, j < n → midIdx lower upper - 1 < (j : Int) →
              r < f j := by
            intro j hj hjgt
            rcases Nat.lt_or_ge j ((midIdx lower upper).toNat + 1) with hj2 | hj2
            · have hj3 : j = (midIdx lower upper).toNat := by omega
              rw [hj3]
              exact hgt
            · have := hs j hj (midIdx lower upper).toNat (by omega)
              omega
          obtain ⟨v, hv, hv1, hv2, hv3⟩ :=
            ih lower (midIdx lower upper - 1) (by omega) h0 (by omega) (by omega)
              hlow hhigh2
          refine ⟨v, ?_, by omega, by omega, hv3⟩
          simp only [bsLoopF, if_pos hle, if_neg heq, if_pos hgt]
          exact hv
        · have hlt : f (midIdx lower upper).toNat < r := by omega
          have hlow2 : ∀ j : Nat, j < n → (j : Int) < midIdx lower upper + 1 →
              f j < r := by
            intro j hj hjlt
            rcases Nat.lt_or_ge j (midIdx lower upper).toNat with hj2 | hj2
            · have := hs (midIdx lower upper).toNat hidx j hj2
              omega
            · have hj3 : j = (midIdx lower upper).toNat := by omega
              rw [hj3]
              exact hlt
          obtain ⟨v, hv, hv1, hv2, hv3⟩ :=
            ih (midIdx lower upper + 1) upper (by omega) (by omega) hn (by omega)
              hlow2 hhigh
          refine ⟨v, ?_, by omega, hv2, hv3⟩
          simp only [bsLoopF, if_pos hle, if_neg heq, if_neg hgt]
          exact hv
    · refine ⟨upper, ?_, by omega, le_refl _, ?_⟩
      · simp only [bsLoopF, if_neg hle]
      · intro j hj
        constructor
        · intro hjle
          exact hlow j hj (by omega)
        · intro hfj
          by_contra hc
          have := hhigh j hj (by omega)
          omega

/-- Match invariant: if the sequence is sorted on `[0, n)` and the query
occurs at some index inside the current interval, the loop completes,
returns an in-range index holding the query value, and that index is the
first probe on the search path whose value equals the query. -/
theorem bsLoopF_match (f : Nat → Nat) (r : Nat) (n : Nat)
    (hs : ∀ j, j < n → ∀ i, i < j → f i ≤ f j) :
    ∀ fuel : Nat, ∀ lower upper : Int,
    (upper + 1 - lower).toNat < fuel →
    0 ≤ lower → upper < (n : Int) →
    (∃ j : Nat, j < n ∧ lower ≤ (j : Int) ∧ (j : Int) ≤ upper ∧ f j = r) →
    ∃ v, bsLoopF f r fuel lower upper = some v ∧ 0 ≤ v ∧ v < (n : Int) ∧
      f v.toNat = r ∧
      (bsProbesF f r fuel lower upper).find? (fun i => f i.toNat == r) =
        some v := by
  intro fuel
  induction fuel with
  | zero => intro lower upper hfuel _ _ _; omega
  | succ fuel ih =>
    intro lower upper hfuel h0 hn hex
    obtain ⟨j, hj, hjl, hju, hjr⟩ := hex
    have hle : lower ≤ upper := by omega
    have hmid := midIdx_bounds lower upper hle
    have hidx : (midIdx lower upper).toNat < n := by omega
    have hidxc : ((midIdx lower upper).toNat : Int) = midIdx lower upper := by
      omega
    by_cases heq : f (midIdx lower upper).toNat = r
    · refine ⟨midIdx lower upper, ?_, by omega, by omega, heq, ?_⟩
      · simp only [bsLoopF, if_pos hle, if_pos heq]
      · simp only [bsProbesF, if_pos hle, if_pos heq]
        exact List.find?_cons_of_pos [] (by simp [heq])
    · by_cases hgt : f (midIdx lower upper).toNat > r
      · have hjnew : (j : Int) ≤ midIdx lower upper - 1 := by
          rcases Nat.lt_or_ge j (midIdx lower upper).toNat with hj2 | hj2
          · omega
          · rcases Nat.eq_or_lt_of_le hj2 with hj3 | hj3
            · rw [hj3] at heq
              exact absurd hjr heq
            · have := hs j hj (midIdx lower upper).toNat hj3
              omega
        obtain ⟨v, hv, hv1, hv2, hv3, hv4⟩ :=
          ih lower (midIdx lower upper - 1) (by omega) h0 (by omega)
            ⟨j, hj, hjl, hjnew, hjr⟩
        refine ⟨v, ?_, hv1, hv2, hv3, ?_⟩
        · simp only [bsLoopF, if_pos hle, if_neg heq, if_pos hgt]
          exact hv
        · simp only [bsProbesF, if_pos hle, if_neg heq, if_pos hgt]
          rw [List.find?_cons_of_neg _ (by simp [heq])]
          exact hv4
      · have hlt : f (midIdx lower upper).toNat < r := by omega
        have hjnew : midIdx lower upper + 1 ≤ (j : Int) := by
          rcases Nat.lt_or_ge (midIdx lower upper).toNat j with hj2 | hj2
          · omega
          · rcases Nat.eq_or_lt_of_le hj2 with hj3 | hj3
            · rw [← hj3] at heq
              exact absurd hjr heq
            · have := hs (midIdx lower upper).toNat hidx j hj3
              omega
        obtain ⟨v, hv, hv1, hv2, hv3, hv4⟩ :=
          ih (midIdx lower upper + 1) upper (by omega) (by omega) hn
            ⟨j, hj, hjnew, hju, hjr⟩
        refine ⟨v, ?_, hv1, hv2, hv3, ?_⟩
        · simp only [bsLoopF, if_pos hle, if_neg heq, if_neg hgt]
          exact hv
        · simp only [bsProbesF, if_pos hle, if_neg heq, if_neg hgt]
          rw [List.find?_cons_of_neg _ (by simp [heq])]
          exact hv4

/-- If every value in the interval is above the query, the loop walks to
the left edge and returns `lower - 1`. -/
theorem bsLoopF_all_gt (f : Nat → Nat) (r : Nat) :
    ∀ fuel : Nat, ∀ lower upper : Int,
    (upper + 1 - lower).toNat < fuel →
    0 ≤ lower → lower ≤ upper + 1 →
    (∀ j : Nat, lower ≤ (j : Int) → (j : Int) ≤ upper → r < f j) →
    bsLoopF f r fuel lower upper = some (lower - 1) := by
  intro fuel
  induction fuel with
  | zero => intro lower upper hfuel _ _ _; omega
  | succ fuel ih =>
    intro lower upper hfuel h0 hlu hall
    by_cases hle : lower ≤ upper
    · have hmid := midIdx_bounds lower upper hle
      have hidxc : ((midIdx lower upper).toNat : Int) = midIdx lower upper := by
        omega
      have hgt : r < f (midIdx lower upper).toNat := hall _ (by omega) (by omega)
      have heq : ¬ f (midIdx lower upper).toNat = r := by omega
      have hgt2 : f (midIdx lower upper).toNat > r := hgt
      simp only [bsLoopF, if_pos hle, if_neg heq, if_pos hgt2]
      exact ih lower (midIdx lower upper - 1) (by omega) h0 (by omega)
        (fun j hj1 hj2 => hall j hj1 (by omega))
    · have h2 : upper = lower - 1 := by omega
      simp only [bsLoopF, if_neg hle]
      rw [h2]

/-- If every value in the interval is below the query, the loop walks to
the right edge and returns the initial `upper`. -/
theorem bsLoopF_all_lt (f : Nat → Nat) (r : Nat) :
    ∀ fuel : Nat, ∀ lower upper : Int,
    (upper + 1 - lower).toNat < fuel →
    0 ≤ lower →
    (∀ j : Nat, lower ≤ (j : Int) → (j : Int) ≤ upper → f j < r) →
    bsLoopF f r fuel lower upper = some upper := by
  intro fuel
  induction fuel with
  | zero => intro lower upper hfuel _ _; omega
  | succ fuel ih =>
    intro lower upper hfuel h0 hall
    by_cases hle : lower ≤ upper
    · have hmid := midIdx_bounds lower upper hle
      have hidxc : ((midIdx lower upper).toNat : Int) = midIdx lower upper := by
        omega
      have hlt : f (midIdx lower upper).toNat < r := hall _ (by omega) (by omega)
      have heq : ¬ f (midIdx lower upper).toNat = r := by omega
      have hngt : ¬ f (midIdx lower upper).toNat > r := by omega
      simp only [bsLoopF, if_pos hle, if_neg heq, if_neg hngt]
      exact ih (midIdx lower upper + 1) upper (by omega) (by omega)
        (fun j hj1 hj2 => hall j (by omega) hj2)
    · simp only [bsLoopF, if_neg hle]

/-- Every index probed from a state with `0 ≤ lower` and `upper < n` lies
in `[0, n)`, for any fuel and any accessor (sorted or not). -/
theorem bsProbesF_bounds (f : Nat → Nat) (r : Nat) (n : Nat) :
    ∀ fuel : Nat, ∀ lower upper : Int, 0 ≤ lower → upper < (n : Int) →
    ∀ i, i ∈ bsProbesF f r fuel lower upper → 0 ≤ i ∧ i < (n : Int) := by
  intro fuel
  induction fuel with
  | zero => intro lower upper _ _ i hi; simp [bsProbesF] at hi
  | succ fuel ih =>
    intro lower upper h0 hn i hi
    by_cases hle : lower ≤ upper
    · have hmid := midIdx_bounds lower upper hle
      simp only [bsProbesF, if_pos hle] at hi
      rcases List.mem_cons.mp hi with hi1 | hi2
      · subst hi1
        omega
      · by_cases heq : f (midIdx lower upper).toNat = r
        · rw [if_pos heq] at hi2
          simp at hi2
        · by_cases hgt : f (midIdx lower upper).toNat > r
          · rw [if_neg heq, if_pos hgt] at hi2
            exact ih lower (midIdx lower upper - 1) h0 (by omega) i hi2
          · rw [if_neg heq, if_neg hgt] at hi2
            exact ih (midIdx lower upper + 1) upper (by omega) hn i hi2
    · simp [bsProbesF, if_neg hle] at hi

/-- `bsStep` is the transition of the loop of binary_search.c: one step to
state `(lower2, upper2)` commutes with unrolling one unit of fuel. -/
theorem bsStep_bsLoopF (f : Nat → Nat) (r : Nat) (fuel : Nat)
    (lower upper lower2 upper2 : Int)
    (h : bsStep f r (lower, upper) = some (lower2, upper2)) :
    bsLoopF f r (fuel + 1) lower upper = bsLoopF f r fuel lower2 upper2 := by
  simp only [bsStep] at h
  by_cases hle : lower ≤ upper
  · rw [if_pos hle] at h
    by_cases heq : f (midIdx lower upper).toNat = r
    · rw [if_pos heq] at h
      exact Option.noConfusion h
    · rw [if_neg heq] at h
      by_cases hgt : f (midIdx lower upper).toNat > r
      · rw [if_pos hgt] at h
        simp only [Option.some.injEq, Prod.mk.injEq] at h
        obtain ⟨h1, h2⟩ := h
        subst h1
        subst h2
        simp only [bsLoopF, if_pos hle, if_neg heq, if_pos hgt]
      · rw [if_neg hgt] at h
        simp only [Option.some.injEq, Prod.mk.injEq] at h
        obtain ⟨h1, h2⟩ := h
        subst h1
        subst h2
        simp only [bsLoopF, if_pos hle, if_neg heq, if_neg hgt]
  · rw [if_neg hle] at h
    exact Option.noConfusion h

/-- Transport a completed loop run to the value of the entry point. -/
theorem binary_search_eq (ary : List Entry) (r : Nat) (v : Int)
    (h : bsLoopF (listAcc ary) r (ary.length + 1) 0 ((ary.length : Int) - 1) =
      some v) :
    binary_search ary r = v := by
  have h2 := binary_search_spec ary r
  rw [h] at h2
  exact (Option.some_inj.mp h2).symm

/-- Claim C1: for every sequence sorted non-decreasing by value and every
query `q` with no entry equal to `q`, `binary_search` returns the index of
the last entry whose value is strictly less than `q` — the predecessor
index, characterised by `j ≤ result ↔ S[j].value < q` for every `j < n`
together with `result ∈ [-1, n-1]`; in particular, for adjacent distinct
values `S[i].value < q < S[i+1].value` the result is `i`. -/
theorem C1_predecessor_index (ary : List Entry) (q : Nat)
    (hs : sortedList ary) (hnm : ∀ j, j < ary.length → listAcc ary j ≠ q) :
    (-1 ≤ binary_search ary q ∧ binary_search ary q ≤ (ary.length : Int) - 1) ∧
    (∀ j, j < ary.length →
      ((j : Int) ≤ binary_search ary q ↔ listAcc ary j < q)) ∧
    (∀ i, i + 1 < ary.length → listAcc ary i < q → q < listAcc ary (i + 1) →
      binary_search ary q = (i : Int)) := by
  obtain ⟨v, hv, hv1, hv2, hv3⟩ :=
    bsLoopF_nomatch (listAcc ary) q ary.length hs hnm (ary.length + 1) 0
      ((ary.length : Int) - 1) (by omega) (by omega) (by omega) (by omega)
      (fun j hj hj2 => absurd hj2 (by omega))
      (fun j hj hj2 => absurd hj (by omega))
  rw [binary_search_eq ary q v hv]
  refine ⟨⟨by omega, by omega⟩, hv3, ?_⟩
  intro i hi hlt hgt
  have h1 := (hv3 i (by omega)).mpr hlt
  have h2 : ¬ (((i + 1 : Nat) : Int) ≤ v) := fun hc =>
    absurd ((hv3 (i + 1) hi).mp hc) (by omega)
  omega

/-- Witness for C1 at the spec scenario `S = [10,20,30,40]`, `q = 25`. -/
theorem C1_predecessor_index_witness :
    sortedList S4 ∧ (∀ j, j < S4.length → listAcc S4 j ≠ 25) ∧
    ((-1 ≤ binary_search S4 25 ∧ binary_search S4 25 ≤ (S4.length : Int) - 1) ∧
     (∀ j, j < S4.length →
       ((j : Int) ≤ binary_search S4 25 ↔ listAcc S4 j < 25)) ∧
     (∀ i, i + 1 < S4.length → listAcc S4 i < 25 → 25 < listAcc S4 (i + 1) →
       binary_search S4 25 = (i : Int))) :=
  ⟨by decide, by decide, C1_predecessor_index S4 25 (by decide) (by decide)⟩

/-- Claim C2: for every sequence sorted non-decreasing by value and every
query `q`, if some entry's value equals `q` then `binary_search` returns
an in-range index `i` with `S[i].value = q`. -/
theorem C2_exact_match (ary : List Entry) (q : Nat) (hs : sortedList ary)
    (hm : ∃ j, j < ary.length ∧ listAcc ary j = q) :
    0 ≤ binary_search ary q ∧ binary_search ary q < (ary.length : Int) ∧
    listAcc ary (binary_search ary q).toNat = q := by
  obtain ⟨j, hj, hjq⟩ := hm
  obtain ⟨v, hv, hv1, hv2, hv3, -⟩ :=
    bsLoopF_match (listAcc ary) q ary.length hs (ary.length + 1) 0
      ((ary.length : Int) - 1) (by omega) (by omega) (by omega)
      ⟨j, hj, by omega, by omega, hjq⟩
  rw [binary_search_eq ary q v hv]
  exact ⟨hv1, hv2, hv3⟩

/-- Witness for C2 at `S = [10,20,30,40]`, `q = 30`. -/
theorem C2_exact_match_witness :
    sortedList S4 ∧ (2 < S4.length ∧ listAcc S4 2 = 30) ∧
    (0 ≤ binary_search S4 30 ∧ binary_search S4 30 < (S4.length : Int) ∧
     listAcc S4 (binary_search S4 30).toNat = 30) :=
  ⟨by decide, ⟨by decide, by decide⟩,
    C2_exact_match S4 30 (by decide) ⟨2, by decide, by decide⟩⟩

/-- Claim C3: for every query `q`, searching the empty sequence returns
`-1`, a defined result (no error path exists in the embedding). -/
theorem C3_empty_returns (q : Nat) : binary_search [] q = -1 := rfl

/-- Claim C4: on a non-empty sorted sequence, a query below the first
value yields `-1`, and a query above the last value yields `n - 1`. -/
theorem C4_extreme_queries (ary : List Entry) (q : Nat) (hne : ary ≠ [])
    (hs : sortedList ary) :
    (q < listAcc ary 0 → binary_search ary q = -1) ∧
    (listAcc ary (ary.length - 1) < q →
      binary_search ary q = (ary.length : Int) - 1) := by
  have hlen : 0 < ary.length := List.length_pos.mpr hne
  constructor
  · intro hq
    have hall : ∀ j : Nat, (0 : Int) ≤ (j : Int) → (j : Int) ≤ (ary.length : Int) - 1 →
        q < listAcc ary j := by
      intro j hj1 hj2
      rcases Nat.eq_zero_or_pos j with hj0 | hj0
      · rw [hj0]
        exact hq
      · have := hs j (by omega) 0 hj0
        omega
    have h := bsLoopF_all_gt (listAcc ary) q (ary.length + 1) 0
      ((ary.length : Int) - 1) (by omega) (by omega) (by omega) hall
    rw [binary_search_eq ary q _ h]
    decide
  · intro hq
    have hall : ∀ j : Nat, (0 : Int) ≤ (j : Int) → (j : Int) ≤ (ary.length : Int) - 1 →
        listAcc ary j < q := by
      intro j hj1 hj2
      rcases Nat.lt_or_ge j (ary.length - 1) with hj3 | hj3
      · have := hs (ary.length - 1) (by omega) j hj3
        omega
      · have hj4 : j = ary.length - 1 := by omega
        rw [hj4]
        exact hq
    have h := bsLoopF_all_lt (listAcc ary) q (ary.length + 1) 0
      ((ary.length : Int) - 1) (by omega) (by omega) hall
    exact binary_search_eq ary q _ h

/-- Witness for C4 at `S = [10,20,30,40]`, `q = 5` (below the minimum). -/
theorem C4_extreme_queries_witness :
    (S4 ≠ [] ∧ sortedList S4 ∧ 5 < listAcc S4 0) ∧ binary_search S4 5 = -1 :=
  ⟨⟨by decide, by decide, by decide⟩,
    (C4_extreme_queries S4 5 (by decide) (by decide)).1 (by decide)⟩

/-- Claim C5: for every sequence (of any length, sorted or not) and every
query, the returned integer lies in the range `[-1, n-1]`. -/
theorem C5_result_range (ary : List Entry) (q : Nat) :
    -1 ≤ binary_search ary q ∧ binary_search ary q ≤ (ary.length : Int) - 1 := by
  obtain ⟨v, hv, hv1, hv2⟩ :=
    bsLoopF_range (listAcc ary) q ary.length (ary.length + 1) 0
      ((ary.length : Int) - 1) (by omega) (by omega) (by omega) (by omega)
  rw [binary_search_eq ary q v hv]
  omega

/-- Claim C6 (refuted): the C index variables have type `int` (32-bit,
maximum 2^31 - 1), yet the bound pair `(2^30, 2^30)` is reached by the
loop's own transition relation from the initial state of a sequence of
length 2^30 + 1 (all values 0, query 1) — a length Ruby arrays support —
and there `lower + upper = 2^31` exceeds the maximum `int` value, so the
sum overflows and the midpoint is not computed exactly. -/
theorem C6_overflow_reachable :
    bsStepN (fun _ => 0) 1 30 (0, (2 ^ 30 + 1 : Int) - 1) =
      some (2 ^ 30, 2 ^ 30) ∧
    (2 ^ 31 : Int) - 1 < 2 ^ 30 + 2 ^ 30 := by
  constructor
  · decide
  · decide

/-- Claim C7: when entries equal to the query exist in a sorted sequence,
the result is the first index on the probe path whose value equals the
query; and for some sorted sequence with duplicate values equal to the
query the result is not the lowest index holding that value. -/
theorem C7_first_probe_match (ary : List Entry) (q : Nat) (hs : sortedList ary)
    (hm : ∃ j, j < ary.length ∧ listAcc ary j = q) :
    (binary_search_probes ary q).find? (fun i => listAcc ary i.toNat == q) =
      some (binary_search ary q) ∧
    (∃ dup : List Entry, ∃ dq : Nat, sortedList dup ∧
      listAcc dup (binary_search dup dq).toNat = dq ∧
      ∃ j : Nat, (j : Int) < binary_search dup dq ∧ listAcc dup j = dq) := by
  constructor
  · obtain ⟨j, hj, hjq⟩ := hm
    obtain ⟨v, hv, hv1, hv2, hv3, hv4⟩ :=
      bsLoopF_match (listAcc ary) q ary.length hs (ary.length + 1) 0
        ((ary.length : Int) - 1) (by omega) (by omega) (by omega)
        ⟨j, hj, by omega, by omega, hjq⟩
    rw [binary_search_eq ary q v hv]
    exact hv4
  · exact ⟨S3dup, 7, by decide, by decide, 0, by decide, by decide⟩

/-- Witness for C7 at `S = [10,20,30,40]`, `q = 30`. -/
theorem C7_first_probe_match_witness :
    sortedList S4 ∧ (2 < S4.length ∧ listAcc S4 2 = 30) ∧
    (binary_search_probes S4 30).find? (fun i => listAcc S4 i.toNat == 30) =
      some (binary_search S4 30) :=
  ⟨by decide, ⟨by decide, by decide⟩,
    (C7_first_probe_match S4 30 (by decide) ⟨2, by decide, by decide⟩).1⟩

/-- Claim C8: for every sequence (sorted or not) and every query, the
loop terminates: the full call completes within fuel `n + 1` (first
conjunct: the fuel-indexed loop returns `some`), because from any state
with `lower ≤ upper` both possible successor intervals are strictly
smaller than the current inclusive interval (second conjunct). -/
theorem C8_loop_terminates (ary : List Entry) (q : Nat) :
    bsLoopF (listAcc ary) q (ary.length + 1) 0 ((ary.length : Int) - 1) =
      some (binary_search ary q) ∧
    (∀ lower upper : Int, lower ≤ upper →
      (midIdx lower upper - 1 + 1 - lower).toNat < (upper + 1 - lower).toNat ∧
      (upper + 1 - (midIdx lower upper + 1)).toNat <
        (upper + 1 - lower).toNat) := by
  refine ⟨binary_search_spec ary q, ?_⟩
  intro lower upper hle
  have hmid := midIdx_bounds lower upper hle
  omega

/-- Witness for C8 at `S = [10,20,30,40]`, `q = 25`, interval `[0, 3]`. -/
theorem C8_loop_terminates_witness :
    bsLoopF (listAcc S4) 25 (S4.length + 1) 0 ((S4.length : Int) - 1) =
      some (binary_search S4 25) ∧
    ((midIdx 0 3 - 1 + 1 - 0).toNat < ((3 : Int) + 1 - 0).toNat ∧
     ((3 : Int) + 1 - (midIdx 0 3 + 1)).toNat < ((3 : Int) + 1 - 0).toNat) :=
  ⟨(C8_loop_terminates S4 25).1, (C8_loop_terminates S4 25).2 0 3 (by decide)⟩

/-- Claim C9: for every sequence (sorted or not) and every query, every
index at which the value accessor is read lies in `[0, n-1]`; on the
empty sequence nothing is ever read. -/
theorem C9_reads_in_bounds (ary : List Entry) (q : Nat) :
    (∀ i, i ∈ binary_search_probes ary q → 0 ≤ i ∧ i < (ary.length : Int)) ∧
    binary_search_probes [] q = [] := by
  constructor
  · intro i hi
    exact bsProbesF_bounds (listAcc ary) q ary.length (ary.length + 1) 0
      ((ary.length : Int) - 1) (by omega) (by omega) i hi
  · rfl

/-- Witness for C9: probe index 1 of the run on `S = [10,20,30,40]`,
`q = 25` is in bounds. -/
theorem C9_reads_in_bounds_witness :
    (0 ≤ (1 : Int) ∧ (1 : Int) < (S4.length : Int)) ∧
    binary_search_probes [] 25 = [] :=
  ⟨(C9_reads_in_bounds S4 25).1 1 (by decide), (C9_reads_in_bounds S4 25).2⟩

/-- Claim C10: on a sorted sequence the returned index is monotone
non-decreasing in the query (unsigned order). -/
theorem C10_query_monotone (ary : List Entry) (q1 q2 : Nat)
    (hs : sortedList ary) (hq : q1 ≤ q2) :
    binary_search ary q1 ≤ binary_search ary q2 := by
  rcases Nat.eq_or_lt_of_le hq with heq | hlt
  · rw [heq]
  · by_cases hm1 : ∃ j, j < ary.length ∧ listAcc ary j = q1
    · obtain ⟨j1, hj1, hjq1⟩ := hm1
      obtain ⟨v1, hv1, hv11, hv12, hv13, -⟩ :=
        bsLoopF_match (listAcc ary) q1 ary.length hs (ary.length + 1) 0
          ((ary.length : Int) - 1) (by omega) (by omega) (by omega)
          ⟨j1, hj1, by omega, by omega, hjq1⟩
      rw [binary_search_eq ary q1 v1 hv1]
      by_cases hm2 : ∃ j, j < ary.length ∧ listAcc ary j = q2
      · obtain ⟨j2, hj2, hjq2⟩ := hm2
        obtain ⟨v2, hv2, hv21, hv22, hv23, -⟩ :=
          bsLoopF_match (listAcc ary) q2 ary.length hs (ary.length + 1) 0
            ((ary.length : Int) - 1) (by omega) (by omega) (by omega)
            ⟨j2, hj2, by omega, by omega, hjq2⟩
        rw [binary_search_eq ary q2 v2 hv2]
        by_contra hc
        have h1 : v2.toNat < v1.toNat := by omega
        have := hs v1.toNat (by omega) v2.toNat h1
        omega
      · obtain ⟨v2, hv2, hv21, hv22, hv23⟩ :=
          bsLoopF_nomatch (listAcc ary) q2 ary.length hs
            (fun j hj hcon => hm2 ⟨j, hj, hcon⟩) (ary.length + 1) 0
            ((ary.length : Int) - 1) (by omega) (by omega) (by omega) (by omega)
            (fun j hj hj2 => absurd hj2 (by omega))
            (fun j hj hj2 => absurd hj (by omega))
        rw [binary_search_eq ary q2 v2 hv2]
        have h1 : (v1.toNat : Int) = v1 := by omega
        have h2 := (hv23 v1.toNat (by omega)).mpr (by omega)
        omega
    · obtain ⟨v1, hv1, hv11, hv12, hv13⟩ :=
        bsLoopF_nomatch (listAcc ary) q1 ary.length hs
          (fun j hj hcon => hm1 ⟨j, hj, hcon⟩) (ary.length + 1) 0
          ((ary.length : Int) - 1) (by omega) (by omega) (by omega) (by omega)
          (fun j hj hj2 => absurd hj2 (by omega))
          (fun j hj hj2 => absurd hj (by omega))
      rw [binary_search_eq ary q1 v1 hv1]
      by_cases hm2 : ∃ j, j < ary.length ∧ listAcc ary j = q2
      · obtain ⟨j2, hj2, hjq2⟩ := hm2
        obtain ⟨v2, hv2, hv21, hv22, hv23, -⟩ :=
          bsLoopF_match (listAcc ary) q2 ary.length hs (ary.length + 1) 0
            ((ary.length : Int) - 1) (by omega) (by omega) (by omega)
            ⟨j2, hj2, by omega, by omega, hjq2⟩
        rw [binary_search_eq ary q2 v2 hv2]
        have h1 : ¬ ((v2.toNat : Int) ≤ v1) := fun hc =>
          absurd ((hv13 v2.toNat (by omega)).mp hc) (by omega)
        omega
      · obtain ⟨v2, hv2, hv21, hv22, hv23⟩ :=
          bsLoopF_nomatch (listAcc ary) q2 ary.length hs
            (fun j hj hcon => hm2 ⟨j, hj, hcon⟩) (ary.length + 1) 0
            ((ary.length : Int) - 1) (by omega) (by omega) (by omega) (by omega)
            (fun j hj hj2 => absurd hj2 (by omega))
            (fun j hj hj2 => absurd hj (by omega))
        rw [binary_search_eq ary q2 v2 hv2]
        by_contra hc
        have h0 : 0 ≤ v1 := by omega
        have h1 : (v1.toNat : Int) = v1 := by omega
        have h2 := (hv13 v1.toNat (by omega)).mp (by omega)
        have h3 := (hv23 v1.toNat (by omega)).mpr (by omega)
        omega

/-- Witness for C10 at `S = [10,20,30,40]`, `q1 = 25`, `q2 = 30`. -/
theorem C10_query_monotone_witness :
    sortedList S4 ∧ 25 ≤ 30 ∧ binary_search S4 25 ≤ binary_search S4 30 :=
  ⟨by decide, by decide, C10_query_monotone S4 25 30 (by decide) (by decide)⟩
